import Mathlib

/-!
Shallow embedding of the wire-grid subsystem of day3 (src/day3/src/wires/mod.rs).

Modelling conventions:
* Rust i32 coordinates are modelled as unbounded Int and u32 counts as Nat
  (the puzzle inputs stay far below the 32-bit bounds; the u32::MAX sentinel
  used by the Rust code is kept as the explicit constant U32_MAX).
* Rust HashSet is modelled as a deduplicated list; only membership and
  (deduplicated, later sorted) contents are observable in the source.
* Rust strings are handled through their character lists; byte length and
  character length agree on the ASCII inputs the program accepts, and
  str::trim is modelled on the ASCII whitespace characters.
-/

namespace Wires

/-- Maximum value of a Rust u32, used as the minimum-fold sentinel. -/
def U32_MAX : Nat := 4294967295

structure Coordinate where
  x : Int
  y : Int
deriving DecidableEq

/-- The shared origin constant COORD_ORIGIN. -/
def COORD_ORIGIN : Coordinate := ⟨0, 0⟩

/-- Coordinate::distance: (i32::abs(self.x - other.x) + i32::abs(self.y - other.y)) as u32. -/
def Coordinate.distance (a b : Coordinate) : Nat :=
  (a.x - b.x).natAbs + (a.y - b.y).natAbs

/-- The derived Ord on Coordinate: lexicographic on (x, y), as Bool-valued le. -/
def Coordinate.cleb (a b : Coordinate) : Bool :=
  decide (a.x < b.x ∨ (a.x = b.x ∧ a.y ≤ b.y))

/-- Strict version of the derived Coordinate order. -/
def Coordinate.clt (a b : Coordinate) : Prop :=
  a.x < b.x ∨ (a.x = b.x ∧ a.y < b.y)

instance : DecidableRel Coordinate.clt := by
  intro a b
  unfold Coordinate.clt
  infer_instance

inductive Movement where
  | up (v : Nat)
  | down (v : Nat)
  | left (v : Nat)
  | right (v : Nat)
deriving DecidableEq

def Movement.magnitude : Movement → Nat
  | .up v => v
  | .down v => v
  | .left v => v
  | .right v => v

/-- Rust u32::from_str on the character list: optional leading plus sign,
then at least one decimal digit, value at most u32::MAX. -/
def parseU32 (l : List Char) : Except String Nat :=
  let digits := if l.headD ' ' = '+' then l.drop 1 else l
  if digits.isEmpty then .error "cannot parse integer from empty string"
  else if digits.all Char.isDigit then
    let v := digits.foldl (fun a c => 10 * a + (c.toNat - 48)) 0
    if v ≤ U32_MAX then .ok v else .error "number too large to fit in target type"
  else .error "invalid digit found in string"

/-- Error message for an unrecognized direction letter
(the Rust format string quotes the character; the quotes are immaterial). -/
def errUnknownDir (c : Char) : String :=
  "unknown movement direction " ++ c.toString

/-- Movement::parse on the token's character list: length check, then the
magnitude parse of the tail, then the uppercased first character. -/
def parseMovementChars (l : List Char) : Except String Movement :=
  if l.length < 2 then .error "invalid movement length"
  else
    match parseU32 (l.drop 1) with
    | .error e => .error e
    | .ok amount =>
      let dir := (l.headD ' ').toUpper
      if dir = 'U' then .ok (.up amount)
      else if dir = 'D' then .ok (.down amount)
      else if dir = 'L' then .ok (.left amount)
      else if dir = 'R' then .ok (.right amount)
      else .error (errUnknownDir dir)

/-- Movement::parse. -/
def Movement.parse (mov : String) : Except String Movement :=
  parseMovementChars mov.data

/-- Movement::find_path: the inclusive coordinate range from start along the
movement's direction, in order of travel. -/
def Movement.find_path (m : Movement) (start : Coordinate) : List Coordinate :=
  match m with
  | .up v => (List.range (v + 1)).map (fun i : Nat => ⟨start.x, start.y + (i : Int)⟩)
  | .down v => (List.range (v + 1)).map (fun i : Nat => ⟨start.x, start.y - (i : Int)⟩)
  | .left v => (List.range (v + 1)).map (fun i : Nat => ⟨start.x - (i : Int), start.y⟩)
  | .right v => (List.range (v + 1)).map (fun i : Nat => ⟨start.x + (i : Int), start.y⟩)

/-- The endpoint of a movement: the start shifted by the magnitude along the
movement's direction (used to state the find_path property). -/
def Movement.endPoint (m : Movement) (s : Coordinate) : Coordinate :=
  match m with
  | .up v => ⟨s.x, s.y + v⟩
  | .down v => ⟨s.x, s.y - v⟩
  | .left v => ⟨s.x - v, s.y⟩
  | .right v => ⟨s.x + v, s.y⟩

/-- Strict step ordering along a movement's direction of travel: the varying
coordinate strictly increases (Up/Right) or strictly decreases (Down/Left)
while the other coordinate stays fixed. -/
def dirRel (m : Movement) : Coordinate → Coordinate → Prop :=
  match m with
  | .up _ => fun a b => a.x = b.x ∧ a.y < b.y
  | .down _ => fun a b => a.x = b.x ∧ b.y < a.y
  | .left _ => fun a b => a.y = b.y ∧ b.x < a.x
  | .right _ => fun a b => a.y = b.y ∧ a.x < b.x

/-- str::trim modelled on the ASCII whitespace characters. -/
def trimStr (s : String) : String :=
  ⟨((s.data.dropWhile Char.isWhitespace).reverse.dropWhile Char.isWhitespace).reverse⟩

/-- str::split on a comma, accumulator style. -/
def splitComma : List Char → List Char → List String
  | [], acc => [⟨acc.reverse⟩]
  | c :: rest, acc =>
    if c = ',' then ⟨acc.reverse⟩ :: splitComma rest [] else splitComma rest (c :: acc)

/-- The token loop of Wire::parse: skip tokens that are empty after trimming,
parse the rest as Movements, abort on the first error. -/
def parseMoves : List String → Except String (List Movement)
  | [] => .ok []
  | t :: ts =>
    if (trimStr t).data.length = 0 then parseMoves ts
    else
      match Movement.parse t with
      | .error e => .error e
      | .ok m =>
        match parseMoves ts with
        | .error e => .error e
        | .ok ms => .ok (m :: ms)

/-- The replay loop of Wire::parse: for each movement, drop the first element
of find_path (the current position), append the rest, and advance the current
position to the last appended coordinate (no advance when the path is empty). -/
def buildCoords : List Movement → Coordinate → List Coordinate
  | [], _ => []
  | m :: ms, cur =>
    match ((m.find_path cur).drop 1).getLast? with
    | some last => (m.find_path cur).drop 1 ++ buildCoords ms last
    | none => buildCoords ms cur

structure Wire where
  moves : List Movement
  coords : List Coordinate
  hash_coords : List Coordinate
deriving DecidableEq

/-- Wire::parse. -/
def Wire.parse (line : String) : Except String Wire :=
  match parseMoves (splitComma line.data []) with
  | .error e => .error e
  | .ok moves =>
    .ok { moves := moves,
          coords := buildCoords moves COORD_ORIGIN,
          hash_coords := (buildCoords moves COORD_ORIGIN).dedup }

/-- The indexed scan of Wire::steps. -/
def stepsLoop (c : Coordinate) : List Coordinate → Nat → Option Nat
  | [], _ => none
  | x :: xs, idx => if c = x then some (idx + 1) else stepsLoop c xs (idx + 1)

/-- Wire::steps: 1-based position of the first occurrence in the trail. -/
def Wire.steps (w : Wire) (c : Coordinate) : Option Nat :=
  stepsLoop c w.coords 0

structure Grid where
  wires : List Wire

/-- Grid::add_wire. -/
def Grid.add_wire (g : Grid) (w : Wire) : Grid :=
  ⟨g.wires ++ [w]⟩

/-- The per-pair body of Grid::intersections: elements of the set intersection
of the two visited sets, the origin excluded. -/
def pairInter (w1 w2 : Wire) : List Coordinate :=
  w1.hash_coords.filter (fun c => decide (c ∈ w2.hash_coords ∧ c ≠ COORD_ORIGIN))

/-- The accumulated (unsorted, possibly duplicated) intersection coordinates
over all ordered pairs of distinct wire indices. -/
def Grid.interRaw (g : Grid) : List Coordinate :=
  g.wires.enum.flatMap (fun p =>
    g.wires.enum.flatMap (fun q =>
      if p.1 = q.1 then [] else pairInter p.2 q.2))

/-- Insertion into a list sorted by the derived Coordinate order. -/
def insertSorted (c : Coordinate) : List Coordinate → List Coordinate
  | [] => [c]
  | x :: xs => if Coordinate.cleb c x then c :: x :: xs else x :: insertSorted c xs

/-- Insertion sort by the derived Coordinate order (models Vec::sort). -/
def sortCoords : List Coordinate → List Coordinate
  | [] => []
  | x :: xs => insertSorted x (sortCoords xs)

/-- Grid::intersections: HashSet accumulation (dedup) followed by sort. -/
def Grid.intersections (g : Grid) : List Coordinate :=
  sortCoords g.interRaw.dedup

/-- Grid::closest_distance. -/
def Grid.closest_distance (g : Grid) : Option Nat :=
  if g.wires.length < 2 then none
  else
    some (g.intersections.foldl
      (fun low c =>
        if Coordinate.distance c COORD_ORIGIN < low then Coordinate.distance c COORD_ORIGIN
        else low)
      U32_MAX)

/-- The inner wire loop of Grid::shortest_steps: sum of steps over all wires,
a wire without the coordinate contributing nothing. -/
def Grid.sumSteps (g : Grid) (c : Coordinate) : Nat :=
  g.wires.foldl
    (fun acc w =>
      match w.steps c with
      | some s => acc + s
      | none => acc)
    0

/-- Grid::shortest_steps: minimum fold with the u32::MAX sentinel mapped
back to None. -/
def Grid.shortest_steps (g : Grid) : Option Nat :=
  if g.wires.length < 2 then none
  else
    if g.intersections.foldl
        (fun low c => if g.sumSteps c < low then g.sumSteps c else low) U32_MAX = U32_MAX
    then none
    else
      some (g.intersections.foldl
        (fun low c => if g.sumSteps c < low then g.sumSteps c else low) U32_MAX)

/-- The wire produced by Wire::parse of the line R1. -/
def wR1 : Wire := ⟨[.right 1], [⟨1, 0⟩], [⟨1, 0⟩]⟩

/-- The wire produced by Wire::parse of the line R2. -/
def wR2 : Wire := ⟨[.right 2], [⟨1, 0⟩, ⟨2, 0⟩], [⟨1, 0⟩, ⟨2, 0⟩]⟩

/-- The wire produced by Wire::parse of the line U1. -/
def wU1 : Wire := ⟨[.up 1], [⟨0, 1⟩], [⟨0, 1⟩]⟩

/-- The wire produced by Wire::parse of the line D1. -/
def wD1 : Wire := ⟨[.down 1], [⟨0, -1⟩], [⟨0, -1⟩]⟩

/-! ## Helper lemmas -/

theorem find_path_length (m : Movement) (s : Coordinate) :
    (m.find_path s).length = m.magnitude + 1 := by
  cases m <;> simp [Movement.find_path, Movement.magnitude]

theorem find_path_head (m : Movement) (s : Coordinate) :
    (m.find_path s).head? = some s := by
  cases m <;> simp [Movement.find_path, List.range_succ_eq_map]

theorem find_path_getLast (m : Movement) (s : Coordinate) :
    (m.find_path s).getLast? = some (m.endPoint s) := by
  cases m <;>
    · rw [Movement.find_path, List.range_succ, List.map_append]
      simp [Movement.endPoint]

theorem stepsLoop_none (c : Coordinate) :
    ∀ (l : List Coordinate) (k : Nat), stepsLoop c l k = none ↔ c ∉ l := by
  intro l
  induction l with
  | nil => intro k; simp [stepsLoop]
  | cons x xs ih =>
    intro k
    by_cases h : c = x
    · simp [stepsLoop, h]
    · simp [stepsLoop, h, ih]

theorem stepsLoop_some (c : Coordinate) :
    ∀ (l : List Coordinate) (k n : Nat),
      stepsLoop c l k = some n ↔
        ∃ pre post, l = pre ++ c :: post ∧ c ∉ pre ∧ n = k + pre.length + 1 := by
  intro l
  induction l with
  | nil =>
    intro k n
    constructor
    · intro h; exact absurd h (by simp [stepsLoop])
    · rintro ⟨pre, post, heq, -, -⟩
      exact absurd heq.symm (by simp)
  | cons x xs ih =>
    intro k n
    by_cases h : c = x
    · subst h
      rw [stepsLoop, if_pos rfl]
      constructor
      · intro hn
        have hkn : k + 1 = n := Option.some.inj hn
        exact ⟨[], xs, rfl, by simp, by simp only [List.length_nil]; omega⟩
      · rintro ⟨pre, post, heq, hpre, hn⟩
        cases pre with
        | nil =>
          simp only [List.length_nil] at hn
          exact congrArg some (by omega)
        | cons p ps =>
          rw [List.cons_append] at heq
          have hp : c = p := by
            have h' := congrArg (fun l => List.headD l COORD_ORIGIN) heq
            simpa using h'
          exact absurd (hp ▸ List.mem_cons_self p ps) hpre
    · rw [stepsLoop, if_neg h, ih (k + 1) n]
      constructor
      · rintro ⟨pre, post, heq, hpre, hn⟩
        refine ⟨x :: pre, post, by rw [heq, List.cons_append], ?_, ?_⟩
        · intro hc
          rcases List.mem_cons.1 hc with hc | hc
          · exact h hc
          · exact hpre hc
        · simp only [List.length_cons]; omega
      · rintro ⟨pre, post, heq, hpre, hn⟩
        cases pre with
        | nil =>
          rw [List.nil_append] at heq
          exact absurd (by injection heq with h1 _; exact h1.symm) h
        | cons p ps =>
          rw [List.cons_append] at heq
          injection heq with h1 h2
          refine ⟨ps, post, h2, fun hc => hpre (List.mem_cons.2 (Or.inr hc)), ?_⟩
          simp only [List.length_cons] at hn
          omega

theorem buildCoords_length :
    ∀ (ms : List Movement) (cur : Coordinate),
      (buildCoords ms cur).length = (ms.map Movement.magnitude).sum := by
  intro ms
  induction ms with
  | nil => intro cur; simp [buildCoords]
  | cons m tl ih =>
    intro cur
    have hlen : ((m.find_path cur).drop 1).length = m.magnitude := by
      rw [List.length_drop, find_path_length]
      omega
    simp only [buildCoords]
    split
    · simp only [List.length_append, hlen, ih, List.map_cons, List.sum_cons]
    · next hl =>
      have he : (m.find_path cur).drop 1 = [] := by
        rwa [List.getLast?_eq_none_iff] at hl
      rw [he] at hlen
      simp only [List.length_nil] at hlen
      simp [ih, List.map_cons, List.sum_cons, ← hlen]

/-! ## Claim theorems -/

/-- Claim C9: for all coordinates a and b, distance(a,b) equals
the sum of the absolute coordinate differences, is symmetric, and is
zero exactly when the two coordinates are equal. -/
theorem coordinate_distance_spec (a b : Coordinate) :
    Coordinate.distance a b = (a.x - b.x).natAbs + (a.y - b.y).natAbs ∧
    Coordinate.distance a b = Coordinate.distance b a ∧
    (Coordinate.distance a b = 0 ↔ a = b) := by
  refine ⟨rfl, ?_, ?_⟩
  · unfold Coordinate.distance; omega
  · unfold Coordinate.distance
    cases a with
    | mk ax ay =>
      cases b with
      | mk bx by' =>
        simp only [Coordinate.mk.injEq]
        omega

/-- Claim C7: for every movement and start coordinate, find_path(start)
returns magnitude + 1 coordinates, the first equal to start, the last equal
to start shifted by the magnitude along the direction, and the varying
coordinate strictly monotonic in the direction of travel. -/
theorem movement_find_path_spec (m : Movement) (start : Coordinate) :
    (m.find_path start).length = m.magnitude + 1 ∧
    (m.find_path start).head? = some start ∧
    (m.find_path start).getLast? = some (m.endPoint start) ∧
    (m.find_path start).Pairwise (dirRel m) := by
  refine ⟨find_path_length m start, find_path_head m start, find_path_getLast m start, ?_⟩
  cases m <;>
    · rw [Movement.find_path, List.pairwise_map]
      refine (List.pairwise_lt_range _).imp ?_
      intro i j hij
      dsimp only [dirRel]
      omega

/-- Claim C6: Wire::steps returns the 1-based index of the first occurrence
of the coordinate in the trail when present (the earliest visit when a wire
crosses itself), and indicates absence otherwise. -/
theorem wire_steps_spec (w : Wire) (c : Coordinate) :
    (w.steps c = none ↔ c ∉ w.coords) ∧
    (∀ n, w.steps c = some n ↔
      ∃ pre post, w.coords = pre ++ c :: post ∧ c ∉ pre ∧ n = pre.length + 1) := by
  refine ⟨stepsLoop_none c w.coords 0, fun n => ?_⟩
  rw [Wire.steps, stepsLoop_some]
  simp only [Nat.zero_add]

/-- Claim C5: for every successfully parsed wire, the trail length equals the
sum of the magnitudes of its movements, and the visited set has exactly the
trail's entries as members. -/
theorem wire_parse_invariant_spec (line : String) (w : Wire)
    (h : Wire.parse line = .ok w) :
    w.coords.length = (w.moves.map Movement.magnitude).sum ∧
    (∀ c, c ∈ w.hash_coords ↔ c ∈ w.coords) := by
  unfold Wire.parse at h
  cases hp : parseMoves (splitComma line.data []) with
  | error e =>
    rw [hp] at h
    exact absurd h (by simp)
  | ok moves =>
    rw [hp] at h
    injection h with h
    subst h
    exact ⟨buildCoords_length moves COORD_ORIGIN, fun c => List.mem_dedup⟩

/-- Witness for C5 at the concrete line R2. -/
theorem wire_parse_invariant_spec_witness :
    wR2.coords.length = (wR2.moves.map Movement.magnitude).sum ∧
    (∀ c, c ∈ wR2.hash_coords ↔ c ∈ wR2.coords) :=
  wire_parse_invariant_spec "R2" wR2 rfl

theorem char_whitespace_cases (c : Char) (h : c.isWhitespace = true) :
    c = ' ' ∨ c = '\t' ∨ c = '\r' ∨ c = '\n' := by
  revert h
  unfold Char.isWhitespace
  simp only [Bool.or_eq_true, decide_eq_true_eq]
  tauto

theorem digit_not_ws (c : Char) (h : c.isDigit = true) : c.isWhitespace = false := by
  by_contra hw
  rw [Bool.not_eq_false] at hw
  rcases char_whitespace_cases c hw with rfl | rfl | rfl | rfl <;>
    exact absurd h (by decide)

theorem parseU32_chars (l : List Char) (v : Nat) (h : parseU32 l = .ok v) :
    ∀ c ∈ l, c = '+' ∨ c.isDigit = true := by
  intro c hc
  unfold parseU32 at h
  by_cases hplus : l.headD ' ' = '+'
  · rw [if_pos hplus] at h
    cases l with
    | nil => simp at hplus
    | cons a as =>
      have ha : a = '+' := hplus
      rcases List.mem_cons.1 hc with rfl | hc
      · exact Or.inl ha
      · right
        by_cases hemp : (as : List Char).isEmpty
        · rw [List.drop_one] at h
          simp only [List.tail_cons, hemp, if_pos] at h
          exact Except.noConfusion h
        · rw [List.drop_one] at h
          simp only [List.tail_cons] at h
          rw [if_neg (by simp [hemp])] at h
          by_cases hall : as.all Char.isDigit
          · exact (List.all_eq_true.1 hall) c hc
          · rw [if_neg (by simp [hall])] at h
            cases h
  · rw [if_neg hplus] at h
    by_cases hemp : l.isEmpty
    · simp only [hemp, if_pos] at h
      exact Except.noConfusion h
    · rw [if_neg (by simp [hemp])] at h
      by_cases hall : l.all Char.isDigit
      · exact Or.inr ((List.all_eq_true.1 hall) c hc)
      · rw [if_neg (by simp [hall])] at h
        cases h

theorem dropWhile_id_of_head (p : Char → Bool) (l : List Char)
    (h : ∀ c, l.head? = some c → p c = false) : l.dropWhile p = l := by
  cases l with
  | nil => rfl
  | cons a as =>
    rw [List.dropWhile_cons, if_neg (by simp [h a rfl])]

theorem trimStr_ne (s : String) (h : trimStr s ≠ s) :
    (∃ c, s.data.head? = some c ∧ c.isWhitespace = true) ∨
    (∃ c, s.data.getLast? = some c ∧ c.isWhitespace = true) := by
  by_contra hno
  push_neg at hno
  obtain ⟨hh, hl⟩ := hno
  apply h
  cases s with
  | mk data =>
    cases data with
    | nil => rfl
    | cons a as =>
      have h1 : (a :: as).dropWhile Char.isWhitespace = a :: as := by
        refine dropWhile_id_of_head _ _ fun c hc => ?_
        have hca : a = c := Option.some.inj hc
        subst hca
        have := hh a rfl
        simp [this]
      have h2 : (a :: as).reverse.dropWhile Char.isWhitespace = (a :: as).reverse := by
        refine dropWhile_id_of_head _ _ fun c hc => ?_
        rw [List.head?_reverse] at hc
        have := hl c hc
        simp [this]
      show trimStr ⟨a :: as⟩ = ⟨a :: as⟩
      unfold trimStr
      dsimp only
      exact congrArg String.mk (by rw [h1, h2, List.reverse_reverse])

/-- Counterexample to claim C2: the token with a leading space fails to
parse while its trimmed form parses, so trimming does not happen inside
Movement::parse. -/
theorem movement_parse_trim_counterexample :
    trimStr " U7" = "U7" ∧
    Movement.parse "U7" = .ok (.up 7) ∧
    Movement.parse " U7" = .error "invalid digit found in string" :=
  ⟨rfl, rfl, rfl⟩

/-- Claim C2 (amended): Movement::parse performs no trimming; every token
carrying leading or trailing whitespace fails to parse with some error. -/
theorem movement_parse_whitespace_fails (t : String) (h : trimStr t ≠ t) :
    ∃ e, Movement.parse t = .error e := by
  unfold Movement.parse parseMovementChars
  by_cases hlen : t.data.length < 2
  · exact ⟨_, by rw [if_pos hlen]⟩
  · rw [if_neg hlen]
    cases hp : parseU32 (t.data.drop 1) with
    | error e => exact ⟨e, rfl⟩
    | ok amount =>
      have hnw : ∀ c ∈ t.data.drop 1, c.isWhitespace = false := by
        intro c hc
        rcases parseU32_chars _ _ hp c hc with rfl | hdig
        · rfl
        · exact digit_not_ws c hdig
      have hhead : ∃ c, t.data.head? = some c ∧ c.isWhitespace = true := by
        rcases trimStr_ne t h with hh | ⟨c, hcl, hcw⟩
        · exact hh
        · exfalso
          have hmem : c ∈ t.data.drop 1 := by
            rcases hd : t.data with - | ⟨a, - | ⟨b, rest⟩⟩
            · rw [hd] at hcl; cases hcl
            · rw [hd] at hlen; simp at hlen
            · rw [hd] at hcl
              rw [List.getLast?_cons_cons] at hcl
              exact List.mem_of_mem_getLast? hcl
          rw [hnw c hmem] at hcw
          cases hcw
      obtain ⟨c, hc, hcw⟩ := hhead
      have hid : t.data.headD ' ' = c := by
        cases hd : t.data with
        | nil => rw [hd] at hc; cases hc
        | cons a as =>
          rw [hd] at hc
          exact Option.some.inj hc
      have h4 := char_whitespace_cases c hcw
      rw [hid]
      rcases h4 with rfl | rfl | rfl | rfl <;> exact ⟨_, rfl⟩

/-- Witness for the amended C2 at the concrete token with a leading space. -/
theorem movement_parse_whitespace_fails_witness :
    ∃ e, Movement.parse " U7" = .error e :=
  movement_parse_whitespace_fails " U7" (by decide)

theorem parseMoves_filter :
    ∀ ts : List String,
      parseMoves ts = parseMoves (ts.filter (fun t => decide ((trimStr t).data.length ≠ 0))) := by
  intro ts
  induction ts with
  | nil => rfl
  | cons t ts ih =>
    by_cases h0 : (trimStr t).data.length = 0
    · rw [parseMoves, if_pos h0, List.filter_cons, if_neg (by simpa using h0)]
      exact ih
    · rw [List.filter_cons, if_pos (by simpa using h0)]
      rw [parseMoves, if_neg h0]
      conv_rhs => rw [parseMoves, if_neg h0]
      rw [ih]

theorem parseMoves_first_error :
    ∀ (pre : List String) (t : String) (post : List String) (e : String),
      (∀ u ∈ pre, (trimStr u).data.length = 0 ∨ ∃ m, Movement.parse u = .ok m) →
      (trimStr t).data.length ≠ 0 →
      Movement.parse t = .error e →
      parseMoves (pre ++ t :: post) = .error e := by
  intro pre
  induction pre with
  | nil =>
    intro t post e _ hkeep herr
    rw [List.nil_append, parseMoves, if_neg hkeep, herr]
  | cons u us ih =>
    intro t post e hpre hkeep herr
    have hrest : parseMoves (us ++ t :: post) = .error e :=
      ih t post e (fun x hx => hpre x (List.mem_cons.2 (Or.inr hx))) hkeep herr
    rcases hpre u (List.mem_cons_self u us) with h0 | ⟨m, hm⟩
    · rw [List.cons_append, parseMoves, if_pos h0]
      exact hrest
    · by_cases h0 : (trimStr u).data.length = 0
      · rw [List.cons_append, parseMoves, if_pos h0]
        exact hrest
      · rw [List.cons_append, parseMoves, if_neg h0]
        simp only [hm, hrest]

/-- Claim C8: Wire::parse skips tokens that are empty after trimming
(removing them does not change the parse), and on the first remaining token
that fails Movement::parse it returns that error, producing no Wire. -/
theorem wire_parse_skip_abort_spec :
    (∀ ts : List String,
      parseMoves ts = parseMoves (ts.filter (fun t => decide ((trimStr t).data.length ≠ 0)))) ∧
    (∀ (line : String) (pre : List String) (t : String) (post : List String) (e : String),
      splitComma line.data [] = pre ++ t :: post →
      (∀ u ∈ pre, (trimStr u).data.length = 0 ∨ ∃ m, Movement.parse u = .ok m) →
      (trimStr t).data.length ≠ 0 →
      Movement.parse t = .error e →
      Wire.parse line = .error e) := by
  refine ⟨parseMoves_filter, ?_⟩
  intro line pre t post e hsplit hpre hkeep herr
  unfold Wire.parse
  rw [hsplit, parseMoves_first_error pre t post e hpre hkeep herr]

/-- Witness for C8 at the concrete line with an empty token and a bad token. -/
theorem wire_parse_skip_abort_spec_witness :
    Wire.parse "U7,,W9" = .error (errUnknownDir 'W') :=
  wire_parse_skip_abort_spec.2 "U7,,W9" ["U7", ""] "W9" [] (errUnknownDir 'W')
    rfl
    (by
      intro u hu
      simp only [List.mem_cons, List.not_mem_nil, or_false] at hu
      rcases hu with rfl | rfl
      · right; exact ⟨.up 7, rfl⟩
      · left; rfl)
    (by decide)
    rfl

theorem cleb_total (a b : Coordinate) : a.cleb b = true ∨ b.cleb a = true := by
  unfold Coordinate.cleb
  simp only [decide_eq_true_eq]
  omega

theorem cleb_trans (a b c : Coordinate) (h1 : a.cleb b = true) (h2 : b.cleb c = true) :
    a.cleb c = true := by
  revert h1 h2
  unfold Coordinate.cleb
  simp only [decide_eq_true_eq]
  omega

theorem mem_insertSorted (c a : Coordinate) (l : List Coordinate) :
    a ∈ insertSorted c l ↔ a = c ∨ a ∈ l := by
  induction l with
  | nil => simp [insertSorted]
  | cons x xs ih =>
    rw [insertSorted]
    by_cases h : Coordinate.cleb c x
    · rw [if_pos h]
      simp only [List.mem_cons]
    · rw [if_neg h]
      simp only [List.mem_cons, ih]
      tauto

theorem insertSorted_perm (c : Coordinate) (l : List Coordinate) :
    List.Perm (insertSorted c l) (c :: l) := by
  induction l with
  | nil => exact List.Perm.refl _
  | cons x xs ih =>
    rw [insertSorted]
    by_cases h : Coordinate.cleb c x
    · rw [if_pos h]
    · rw [if_neg h]
      exact (ih.cons x).trans (List.Perm.swap c x xs)

theorem sortCoords_perm (l : List Coordinate) : List.Perm (sortCoords l) l := by
  induction l with
  | nil => exact List.Perm.refl _
  | cons x xs ih => exact (insertSorted_perm x (sortCoords xs)).trans (ih.cons x)

theorem insertSorted_sorted (c : Coordinate) (l : List Coordinate)
    (h : l.Pairwise (fun a b => a.cleb b = true)) :
    (insertSorted c l).Pairwise (fun a b => a.cleb b = true) := by
  induction l with
  | nil => simp [insertSorted]
  | cons x xs ih =>
    rw [insertSorted]
    rcases List.pairwise_cons.1 h with ⟨hx, hxs⟩
    by_cases hc : Coordinate.cleb c x
    · rw [if_pos hc]
      refine List.pairwise_cons.2 ⟨?_, h⟩
      intro b hb
      rcases List.mem_cons.1 hb with rfl | hb
      · exact hc
      · exact cleb_trans c x b hc (hx b hb)
    · rw [if_neg hc]
      refine List.pairwise_cons.2 ⟨?_, ih hxs⟩
      intro b hb
      rcases (mem_insertSorted c b xs).1 hb with rfl | hb
      · rcases cleb_total b x with h1 | h1
        · exact absurd h1 hc
        · exact h1
      · exact hx b hb

theorem sortCoords_sorted (l : List Coordinate) :
    (sortCoords l).Pairwise (fun a b => a.cleb b = true) := by
  induction l with
  | nil => exact List.Pairwise.nil
  | cons x xs ih => exact insertSorted_sorted x (sortCoords xs) ih

theorem sortCoords_nodup (l : List Coordinate) (h : l.Nodup) : (sortCoords l).Nodup :=
  (sortCoords_perm l).nodup_iff.2 h

/-- Claim C4: Grid::intersections is strictly sorted by the coordinate order
(hence deduplicated), never contains the origin, and is empty with fewer
than 2 wires. -/
theorem grid_intersections_spec (g : Grid) :
    g.intersections.Pairwise Coordinate.clt ∧
    COORD_ORIGIN ∉ g.intersections ∧
    (g.wires.length < 2 → g.intersections = []) := by
  refine ⟨?_, ?_, ?_⟩
  · have hs := sortCoords_sorted g.interRaw.dedup
    have hn : (sortCoords g.interRaw.dedup).Pairwise (fun a b => a ≠ b) :=
      sortCoords_nodup _ (List.nodup_dedup _)
    refine (hs.and hn).imp ?_
    intro a b hab
    obtain ⟨hle, hne⟩ := hab
    revert hle hne
    unfold Coordinate.cleb Coordinate.clt
    cases a with
    | mk ax ay =>
      cases b with
      | mk bx bY =>
        simp only [decide_eq_true_eq, ne_eq, Coordinate.mk.injEq, not_and]
        omega
  · unfold Grid.intersections
    intro hmem
    have h1 : COORD_ORIGIN ∈ g.interRaw.dedup :=
      (sortCoords_perm g.interRaw.dedup).mem_iff.1 hmem
    rw [List.mem_dedup] at h1
    unfold Grid.interRaw at h1
    rw [List.mem_flatMap] at h1
    obtain ⟨p, -, h1⟩ := h1
    rw [List.mem_flatMap] at h1
    obtain ⟨q, -, h1⟩ := h1
    by_cases hpq : p.1 = q.1
    · rw [if_pos hpq] at h1
      cases h1
    · rw [if_neg hpq] at h1
      unfold pairInter at h1
      rw [List.mem_filter] at h1
      have h2 := h1.2
      simp only [decide_eq_true_eq] at h2
      exact h2.2 rfl
  · intro hlen
    rcases g with ⟨- | ⟨w, - | ⟨w2, rest⟩⟩⟩
    · rfl
    · rfl
    · exfalso
      dsimp only at hlen
      simp only [List.length_cons] at hlen
      omega

/-- Witness for C4: a one-wire grid has no intersections. -/
theorem grid_intersections_spec_witness :
    (Grid.mk [wR1]).intersections = [] :=
  (grid_intersections_spec (Grid.mk [wR1])).2.2 (by decide)

theorem foldlMin_le_init (f : Coordinate → Nat) (l : List Coordinate) (a : Nat) :
    List.foldl (fun low c => if f c < low then f c else low) a l ≤ a := by
  induction l generalizing a with
  | nil => simp
  | cons x xs ih =>
    rw [List.foldl_cons]
    refine le_trans (ih _) ?_
    split <;> omega

theorem foldlMin_le_mem (f : Coordinate → Nat) :
    ∀ (l : List Coordinate) (a : Nat) (c : Coordinate), c ∈ l →
      List.foldl (fun low c => if f c < low then f c else low) a l ≤ f c := by
  intro l
  induction l with
  | nil => intro a c hc; cases hc
  | cons x xs ih =>
    intro a c hc
    rw [List.foldl_cons]
    rcases List.mem_cons.1 hc with rfl | hc
    · refine le_trans (foldlMin_le_init f xs _) ?_
      split <;> omega
    · exact ih _ c hc

theorem foldlMin_eq_init_or_mem (f : Coordinate → Nat) :
    ∀ (l : List Coordinate) (a : Nat),
      List.foldl (fun low c => if f c < low then f c else low) a l = a ∨
      ∃ c ∈ l, List.foldl (fun low c => if f c < low then f c else low) a l = f c := by
  intro l
  induction l with
  | nil => intro a; left; rfl
  | cons x xs ih =>
    intro a
    rw [List.foldl_cons]
    rcases ih (if f x < a then f x else a) with h | ⟨c, hc, h⟩
    · by_cases hx : f x < a
      · right
        exact ⟨x, List.mem_cons_self x xs, by rw [h, if_pos hx]⟩
      · left
        rw [h, if_neg hx]
    · right
      exact ⟨c, List.mem_cons.2 (Or.inr hc), h⟩

theorem stepsFold (c : Coordinate) :
    ∀ (l : List Wire) (a : Nat),
      List.foldl (fun acc w => match w.steps c with | some s => acc + s | none => acc) a l
        = a + (l.map (fun w => (w.steps c).getD 0)).sum := by
  intro l
  induction l with
  | nil => intro a; simp
  | cons w ws ih =>
    intro a
    rw [List.foldl_cons, ih, List.map_cons, List.sum_cons]
    cases hw : w.steps c with
    | none => simp
    | some s =>
      simp only [Option.getD_some]
      exact Nat.add_assoc a s _

/-- Claim C1: closest_distance is None with fewer than 2 wires; otherwise it
is Some of the minimum origin distance over intersections(), folded from the
u32::MAX sentinel (so the empty-intersections case yields Some U32_MAX). -/
theorem grid_closest_distance_spec (g : Grid) :
    (g.wires.length < 2 → g.closest_distance = none) ∧
    (2 ≤ g.wires.length →
      ∃ m, g.closest_distance = some m ∧
        m ≤ U32_MAX ∧
        (∀ c ∈ g.intersections, m ≤ Coordinate.distance c COORD_ORIGIN) ∧
        (g.intersections = [] → m = U32_MAX) ∧
        (g.intersections ≠ [] →
          (∀ c ∈ g.intersections, Coordinate.distance c COORD_ORIGIN ≤ U32_MAX) →
          ∃ c ∈ g.intersections, m = Coordinate.distance c COORD_ORIGIN)) := by
  constructor
  · intro h
    unfold Grid.closest_distance
    rw [if_pos h]
  · intro h
    unfold Grid.closest_distance
    rw [if_neg (by omega)]
    refine ⟨_, rfl, ?_, ?_, ?_, ?_⟩
    · exact foldlMin_le_init (fun c => Coordinate.distance c COORD_ORIGIN) g.intersections U32_MAX
    · intro c hc
      exact foldlMin_le_mem (fun c => Coordinate.distance c COORD_ORIGIN) g.intersections U32_MAX c hc
    · intro he
      rw [he]
      rfl
    · intro hne hb
      rcases foldlMin_eq_init_or_mem (fun c => Coordinate.distance c COORD_ORIGIN)
          g.intersections U32_MAX with h1 | ⟨c, hc, h1⟩
      · obtain ⟨c0, hc0⟩ := List.exists_mem_of_ne_nil g.intersections hne
        refine ⟨c0, hc0, ?_⟩
        have h2 := foldlMin_le_mem (fun c => Coordinate.distance c COORD_ORIGIN)
          g.intersections U32_MAX c0 hc0
        have h3 := hb c0 hc0
        dsimp only at h2 h3 ⊢
        omega
      · exact ⟨c, hc, h1⟩

/-- Witness for C1 at a concrete two-wire grid intersecting at (1,0). -/
theorem grid_closest_distance_spec_witness :
    ∃ m, (Grid.mk [wR1, wR2]).closest_distance = some m ∧
      m ≤ U32_MAX ∧
      (∀ c ∈ (Grid.mk [wR1, wR2]).intersections, m ≤ Coordinate.distance c COORD_ORIGIN) ∧
      ((Grid.mk [wR1, wR2]).intersections = [] → m = U32_MAX) ∧
      ((Grid.mk [wR1, wR2]).intersections ≠ [] →
        (∀ c ∈ (Grid.mk [wR1, wR2]).intersections,
          Coordinate.distance c COORD_ORIGIN ≤ U32_MAX) →
        ∃ c ∈ (Grid.mk [wR1, wR2]).intersections,
          m = Coordinate.distance c COORD_ORIGIN) :=
  (grid_closest_distance_spec (Grid.mk [wR1, wR2])).2 (by decide)

/-- Claim C3: shortest_steps is None with fewer than 2 wires; otherwise (for
a nonempty intersection list, with all combined step sums below the u32::MAX
sentinel) it is Some of the minimum over intersections of the sum over all
wires of steps(coordinate), an absent coordinate contributing zero. -/
theorem grid_shortest_steps_spec (g : Grid) :
    (∀ c, g.sumSteps c = (g.wires.map (fun w => (w.steps c).getD 0)).sum) ∧
    (g.wires.length < 2 → g.shortest_steps = none) ∧
    (2 ≤ g.wires.length → g.intersections ≠ [] →
      (∀ c ∈ g.intersections, g.sumSteps c < U32_MAX) →
      ∃ m, g.shortest_steps = some m ∧
        (∃ c ∈ g.intersections, m = g.sumSteps c) ∧
        (∀ c ∈ g.intersections, m ≤ g.sumSteps c)) := by
  refine ⟨?_, ?_, ?_⟩
  · intro c
    unfold Grid.sumSteps
    rw [stepsFold c g.wires 0, Nat.zero_add]
  · intro h
    unfold Grid.shortest_steps
    rw [if_pos h]
  · intro h2 hne hb
    unfold Grid.shortest_steps
    rw [if_neg (by omega)]
    obtain ⟨c0, hc0⟩ := List.exists_mem_of_ne_nil g.intersections hne
    have hle0 := foldlMin_le_mem (fun c => g.sumSteps c) g.intersections U32_MAX c0 hc0
    have hvne : ¬ (g.intersections.foldl
        (fun low c => if g.sumSteps c < low then g.sumSteps c else low) U32_MAX = U32_MAX) := by
      have hb0 := hb c0 hc0
      dsimp only at hle0
      omega
    rw [if_neg hvne]
    refine ⟨_, rfl, ?_, ?_⟩
    · rcases foldlMin_eq_init_or_mem (fun c => g.sumSteps c) g.intersections U32_MAX with
        h1 | ⟨c, hc, h1⟩
      · exact absurd h1 hvne
      · exact ⟨c, hc, h1⟩
    · intro c hc
      exact foldlMin_le_mem (fun c => g.sumSteps c) g.intersections U32_MAX c hc

/-- Witness for C3 at a concrete two-wire grid intersecting at (1,0). -/
theorem grid_shortest_steps_spec_witness :
    ∃ m, (Grid.mk [wR1, wR2]).shortest_steps = some m ∧
      (∃ c ∈ (Grid.mk [wR1, wR2]).intersections, m = (Grid.mk [wR1, wR2]).sumSteps c) ∧
      (∀ c ∈ (Grid.mk [wR1, wR2]).intersections, m ≤ (Grid.mk [wR1, wR2]).sumSteps c) :=
  (grid_shortest_steps_spec (Grid.mk [wR1, wR2])).2.2 (by decide) (by decide) (by decide)

/-- Claim C10: shortest_steps is also None when at least 2 wires are loaded
but there is no intersection (the u32::MAX sentinel survives the fold). -/
theorem grid_shortest_steps_empty_none (g : Grid) (h2 : 2 ≤ g.wires.length)
    (hE : g.intersections = []) : g.shortest_steps = none := by
  unfold Grid.shortest_steps
  rw [if_neg (by omega), hE]
  rw [List.foldl_nil, if_pos rfl]

/-- Witness for C10 at a concrete two-wire grid with no intersection. -/
theorem grid_shortest_steps_empty_none_witness :
    (Grid.mk [wU1, wD1]).shortest_steps = none :=
  grid_shortest_steps_empty_none (Grid.mk [wU1, wD1]) (by decide) (by decide)

end Wires
